import Mathlib

/-!
# Verification of the `substance` bloat-analysis engine

A shallow embedding of the core algorithms of the `substance` repository:
symbol-to-crate attribution (`src/crate_name.rs`), hash stripping
(`src/types.rs`), LLVM-IR instantiation analysis (`src/llvm_ir.rs`),
binary-symbol deduplication and the dependency symbol index
(`src/object.rs`), and symbol-level snapshot comparison (`src/lib.rs`).

Rust strings are modelled as `List Char` (the sources only ever handle
ASCII symbol text, where byte indices and char indices coincide).
Rust `HashMap`s and `MultiMap`s are modelled as association lists with
the `entry`/`insert` update semantics of the source; `HashMap` iteration
order is unobservable in the source properties proved here.
Functions that can panic in Rust (`unwrap`) are modelled as
`Option`-returning functions where `none` marks the panic.
-/

namespace Substance

abbrev Str := List Char

/-- Rust `char::is_ascii_digit`. -/
def isAsciiDigit (c : Char) : Bool := '0' ≤ c && c ≤ '9'

/-- Rust `char::is_ascii_lowercase`. -/
def isAsciiLowercase (c : Char) : Bool := 'a' ≤ c && c ≤ 'z'

/-- Rust `char::is_ascii_hexdigit` (upper- or lowercase hex digit). -/
def isAsciiHexdigit (c : Char) : Bool :=
  isAsciiDigit c || ('a' ≤ c && c ≤ 'f') || ('A' ≤ c && c ≤ 'F')

/-- ASCII whitespace, the fragment of Rust `char::is_whitespace` relevant
to symbol text. -/
def isWsChar (c : Char) : Bool := c = ' ' || c = '\t' || c = '\n' || c = '\r'

/-- `leadsWith pat s` holds iff `pat` is a leading run of `s`
(Rust `str::starts_with`). -/
def leadsWith : Str → Str → Bool
  | [], _ => true
  | _ :: _, [] => false
  | c :: cs, d :: ds => c = d && leadsWith cs ds

theorem leadsWith_iff (pat s : Str) :
    leadsWith pat s = true ↔ ∃ t, s = pat ++ t := by
  induction pat generalizing s with
  | nil => simp [leadsWith]
  | cons c cs ih =>
    cases s with
    | nil => simp [leadsWith]
    | cons d ds =>
      simp only [leadsWith, Bool.and_eq_true, decide_eq_true_eq, ih]
      constructor
      · rintro ⟨rfl, t, rfl⟩; exact ⟨t, rfl⟩
      · rintro ⟨t, h⟩
        cases h
        exact ⟨rfl, t, rfl⟩

/-- `pat` occurs as a contiguous run somewhere inside `s`. -/
def SubOf (pat s : Str) : Prop := ∃ pre suf, s = pre ++ pat ++ suf

/-- Index of the first occurrence of `pat` in `s`
(Rust `str::find` with a string pattern). -/
def findSub (pat s : Str) : Option Nat :=
  (List.range (s.length + 1)).find? (fun i => leadsWith pat (s.drop i))

/-- Index of the last occurrence of `pat` in `s`
(Rust `str::rfind` with a string pattern). -/
def rfindSub (pat s : Str) : Option Nat :=
  ((List.range (s.length + 1)).filter (fun i => leadsWith pat (s.drop i))).getLast?

/-- Rust `str::contains` with a string pattern. -/
def strContains (s pat : Str) : Bool := (findSub pat s).isSome

theorem drop_len_append (l₁ l₂ : List Char) : (l₁ ++ l₂).drop l₁.length = l₂ := by
  induction l₁ with
  | nil => rfl
  | cons c cs ih => simp [ih]

theorem findSub_isSome_of_subOf {pat s : Str} (h : SubOf pat s) :
    (findSub pat s).isSome = true := by
  obtain ⟨pre, suf, rfl⟩ := h
  rw [findSub, List.find?_isSome]
  refine ⟨pre.length, ?_, ?_⟩
  · rw [List.mem_range]
    simp [List.length_append]
    omega
  · rw [leadsWith_iff]
    exact ⟨suf, by rw [List.append_assoc, drop_len_append]⟩

theorem subOf_of_leadsWith_drop {pat s : Str} {i : Nat}
    (h : leadsWith pat (s.drop i) = true) : SubOf pat s := by
  obtain ⟨t, ht⟩ := (leadsWith_iff pat (s.drop i)).mp h
  exact ⟨s.take i, t, by rw [List.append_assoc, ← ht, List.take_append_drop]⟩

theorem strContains_true_iff (s pat : Str) :
    strContains s pat = true ↔ SubOf pat s := by
  constructor
  · intro h
    rw [strContains, findSub, Option.isSome_iff_exists] at h
    obtain ⟨i, hi⟩ := h
    have hp := List.find?_some hi
    exact subOf_of_leadsWith_drop hp
  · intro h
    simpa [strContains] using findSub_isSome_of_subOf h

/-! ## Association-list maps

`HashMap`/`MultiMap` values are modelled as association lists whose update
functions mirror the `entry`-API semantics of the source. -/

/-- First value stored under key `k` (Rust `HashMap::get` /
`MultiMap::get_vec`). -/
def assocLookup {β : Type} (k : Str) : List (Str × β) → Option β
  | [] => none
  | (k', v) :: rest => if k' = k then some v else assocLookup k rest

/-- Rust `map.entry(k).and_modify(f).or_insert(dflt)`: update the value
under `k` in place, or append a fresh binding. -/
def updateEntry {β : Type} (k : Str) (f : β → β) (dflt : β) :
    List (Str × β) → List (Str × β)
  | [] => [(k, dflt)]
  | (k', v) :: rest =>
    if k' = k then (k', f v) :: rest else (k', v) :: updateEntry k f dflt rest

theorem assocLookup_updateEntry {β : Type} (k k' : Str) (f : β → β) (dflt : β)
    (m : List (Str × β)) :
    assocLookup k' (updateEntry k f dflt m) =
      if k = k' then
        match assocLookup k' m with
        | some v => some (f v)
        | none => some dflt
      else assocLookup k' m := by
  induction m with
  | nil =>
    by_cases h : k = k' <;> simp [updateEntry, assocLookup, h]
  | cons p rest ih =>
    obtain ⟨k₀, v₀⟩ := p
    by_cases h0 : k₀ = k
    · subst h0
      by_cases h1 : k₀ = k' <;> simp [updateEntry, assocLookup, h1]
    · by_cases h1 : k₀ = k'
      · subst h1
        have : ¬ k = k₀ := fun h => h0 h.symm
        simp [updateEntry, assocLookup, h0, this]
      · simp [updateEntry, assocLookup, h0, h1, ih]

/-! ## `src/crate_name.rs`: unit attribution

The resolver of `crate_name.rs`.  `SymbolName` is `binfarce`'s demangling
result record (an input to this module).  The `unwrap` in
`parse_crate_from_sym` is modelled by an `Option` result: `none` marks a
panic, and the `Option` propagates outward through every caller. -/

/-- `binfarce::demangle::Kind`. -/
inductive SymKind where
  | Legacy : SymKind
  | V0 : SymKind
  | Unknown : SymKind
deriving DecidableEq

/-- `binfarce::demangle::SymbolName`. -/
structure SymbolName where
  complete : Str
  trimmed : Str
  crate_name : Option Str
  kind : SymKind
deriving DecidableEq

/-- The fields of `BuildContext` consulted by `crate_name.rs`:
the std / dependency crate-name sets and the dependency symbol index. -/
structure BuildContext where
  std_crates : List Str
  dep_crates : List Str
  deps_symbols : List (Str × List Str)

/-- `crate_name::UNKNOWN`. -/
def UNKNOWN : Str := "[Unknown]".data

/-- `crate_name::StdHandling`. -/
inductive StdHandling where
  | Split : StdHandling
  | Merged : StdHandling

/-- Helper of `splitWs`: accumulate the current word (reversed). -/
def splitWsAux : Str → Str → List Str
  | [], acc => if acc = [] then [] else [acc.reverse]
  | c :: rest, acc =>
    if isWsChar c then
      if acc = [] then splitWsAux rest [] else acc.reverse :: splitWsAux rest []
    else splitWsAux rest (c :: acc)

/-- Rust `str::split_whitespace` (maximal non-whitespace words, no empties). -/
def splitWs (s : Str) : List Str := splitWsAux s []

/-- `crate_name::parse_crate_from_sym`.  Returns `none` exactly when the
Rust code panics (the `unwrap` on `split_whitespace().last()`). -/
def parse_crate_from_sym (sym : Str) : Option Str :=
  if strContains sym "::".data then
    let crate0 : Str :=
      match findSub "::".data sym with
      | some i => sym.take i
      | none => sym
    if crate0.head? = some '<' then
      let c1 := crate0.dropWhile (· = '<')
      let c2 := c1.dropWhile (· = '&')
      (splitWs c2).getLast?
    else some crate0
  else some []

/-- `crate_name::parse_sym`, the legacy-scheme heuristic.  The first two
pieces of `sym.split(" as ")` are recovered from the first (and second)
occurrence of `" as "`. -/
def parse_sym (d : BuildContext) (sym : Str) : Option (Str × Bool) :=
  match findSub " as ".data sym with
  | some i =>
    let part0 := sym.take i
    let rest := sym.drop (i + 4)
    let part1 :=
      match findSub " as ".data rest with
      | some j => rest.take j
      | none => rest
    match parse_crate_from_sym part0, parse_crate_from_sym part1 with
    | some crate_name1, some crate_name2 =>
      if crate_name1 = [] then some (crate_name2, true)
      else if crate_name1 = crate_name2 then some (crate_name1, true)
      else
        match assocLookup sym d.deps_symbols with
        | some names =>
          if crate_name1 ∈ names then some (crate_name1, true)
          else if crate_name2 ∈ names then some (crate_name2, true)
          else some (crate_name1, false)
        | none => some (crate_name1, false)
    | _, _ => none
  | none => (parse_crate_from_sym sym).map (fun n => (n, true))

/-- `crate_name::parse_sym_v0`. -/
def parse_sym_v0 (d : BuildContext) (sym : Str) : Option (Str × Bool) :=
  (parse_crate_from_sym sym).map (fun name =>
    if name ∈ d.std_crates ∨ name ∈ d.dep_crates then (name, false)
    else (UNKNOWN, true))

/-- `MultiMap::get`: first value recorded under the key. -/
def multiMapGet (k : Str) (m : List (Str × List Str)) : Option Str :=
  (assocLookup k m).bind List.head?

/-- `crate_name::from_sym_impl`. -/
def from_sym_impl (context : BuildContext) (sym : SymbolName) :
    Option (Str × Bool) :=
  match multiMapGet sym.complete context.deps_symbols with
  | some name => some (name, true)
  | none =>
    match sym.kind with
    | .Legacy => parse_sym context sym.complete
    | .V0 =>
      match sym.crate_name with
      | some name => some (name, true)
      | none => parse_sym_v0 context sym.trimmed
    | .Unknown => some (UNKNOWN, true)

/-- `crate_name::from_sym`. -/
def from_sym (context : BuildContext) (std_handling : StdHandling)
    (sym : SymbolName) : Option (Str × Bool) :=
  (from_sym_impl context sym).map (fun p =>
    match std_handling with
    | .Merged => if p.1 ∈ context.std_crates then ("std".data, p.2) else p
    | .Split => p)

example : parse_crate_from_sym "euclid::rect".data = some "euclid".data := by decide
example : parse_crate_from_sym "<euclid::rect".data = some "euclid".data := by decide
example : parse_crate_from_sym "nocolons".data = some [] := by decide
example : parse_crate_from_sym "<::x".data = none := by decide

/-! ## `src/types.rs`: `DemangledSymbol::strip_hash` -/

/-- The character test of `strip_hash`:
`c.is_ascii_hexdigit() && c.is_ascii_lowercase() || c.is_ascii_digit()`. -/
def stripHashChar (c : Char) : Bool :=
  (isAsciiHexdigit c && isAsciiLowercase c) || isAsciiDigit c

/-- `DemangledSymbol::strip_hash` (src/types.rs): remove a trailing
`::h` marker followed by exactly 16 lowercase hex digits, found at the
*last* occurrence of `"::h"`. -/
def strip_hash (s : Str) : Str :=
  match rfindSub "::h".data s with
  | some hash_pos =>
    let suffix := s.drop (hash_pos + 3)
    if suffix.length = 16 && suffix.all stripHashChar then s.take hash_pos
    else s
  | none => s

/-! ## `src/llvm_ir.rs`: the IR instantiation analyzer

The per-file analysis is a line-by-line fold.  `binfarce`'s
`SymbolName::demangle(..).trimmed` is an external-library call; the
analyzer is parameterised by that function (`dem`), so every theorem
below holds for the actual demangler.  Concrete evaluations instantiate
`dem := id`, which is the demangler's behaviour on the unmangled
function names used in those inputs. -/

/-- `types::LlvmFunction` (the `name`/`lines`/`copies` record; the
`LlvmIrLines` and `NumberOfCopies` newtypes are `usize`, modelled as `Nat`). -/
structure LlvmFunction where
  name : Str
  lines : Nat
  copies : Nat
deriving DecidableEq

/-- `LlvmFunction::record_lines`. -/
def record_lines (f : LlvmFunction) (lines : Nat) : LlvmFunction :=
  { f with copies := f.copies + 1, lines := f.lines + lines }

/-- `llvm_ir::is_ascii_hexdigit` (digits and lowercase `a`-`f` only). -/
def irHexdigit (c : Char) : Bool := isAsciiDigit c || ('a' ≤ c && c ≤ 'f')

/-- `llvm_ir::has_hash`: the name ends in `::h` plus 16 (lowercase) hex
digits. -/
def has_hash (name : Str) : Bool :=
  let r := name.reverse
  ((r.take 16).length = 16 && (r.take 16).all irHexdigit) &&
    (match r.drop 16 with
     | 'h' :: ':' :: ':' :: _ => true
     | _ => false)

/-- Rust `str::trim_matches('"')`: strip all leading and trailing `"`. -/
def trimQuotes (s : Str) : Str :=
  ((s.dropWhile (· = '"')).reverse.dropWhile (· = '"')).reverse

/-- `llvm_ir::parse_function_name`, with the external demangler `dem`. -/
def parse_function_name (dem : Str → Str) (line : Str) : Option Str := do
  let start ← line.findIdx? (· = '@')
  let rest := line.drop (start + 1)
  let stop ← rest.findIdx? (· = '(')
  let mangled := trimQuotes (rest.take stop)
  let name := dem mangled
  some (if has_hash name then name.take (name.length - 19) else name)

/-- The loop state of `analyze_llvm_ir_data`: the currently open
function, the body-line counter, and the accumulated map. -/
structure IrState where
  current : Option Str
  count : Nat
  map : List (Str × LlvmFunction)

/-- One iteration of the line loop of `analyze_llvm_ir_data`. -/
def irStep (dem : Str → Str) (st : IrState) (line : Str) : IrState :=
  if leadsWith "define ".data line then
    { st with current := parse_function_name dem line }
  else if line = "\x7d".data then
    match st.current with
    | some name =>
      { current := none, count := 0,
        map := updateEntry name (fun func => record_lines func st.count)
          ⟨[], st.count, 1⟩ st.map }
    | none => { st with current := none, count := 0 }
  else if leadsWith "  ".data line && ! leadsWith "   ".data line then
    { st with count := st.count + 1 }
  else st

/-- Split at every `'\n'` (keeping empty pieces). -/
def splitOnNl : Str → List Str
  | [] => [[]]
  | c :: rest =>
    match splitOnNl rest with
    | [] => [[]]
    | h :: t => if c = '\n' then [] :: h :: t else (c :: h) :: t

/-- Rust `str::lines`: split at `'\n'`, dropping one trailing `'\r'` per
line, yielding nothing for an empty input and no final empty line. -/
def rustLines (s : Str) : List Str :=
  let strip (l : Str) : Str := if l.getLast? = some '\r' then l.dropLast else l
  if s = [] then []
  else (splitOnNl (if s.getLast? = some '\n' then s.dropLast else s)).map strip

/-- `llvm_ir::analyze_llvm_ir_data`. -/
def analyze_llvm_ir_data (dem : Str → Str) (ir : Str) :
    List (Str × LlvmFunction) :=
  ((rustLines ir).foldl (irStep dem) ⟨none, 0, []⟩).map

/-- The `and_modify` closure of the merge loop of
`analyze_llvm_ir_from_target_dir`: sum `copies` and `lines` into the
existing entry. -/
def bumpMerge (existing value : LlvmFunction) : LlvmFunction :=
  { existing with copies := existing.copies + value.copies,
                  lines := existing.lines + value.lines }

/-- The per-key merge of `analyze_llvm_ir_from_target_dir`: fold one
file's map into the accumulator, summing `lines` and `copies`. -/
def mergeFileInto (acc fileFunctions : List (Str × LlvmFunction)) :
    List (Str × LlvmFunction) :=
  fileFunctions.foldl
    (fun acc p => updateEntry p.1 (fun existing => bumpMerge existing p.2) p.2 acc)
    acc

/-- `llvm_ir::analyze_llvm_ir_from_target_dir`, over the contents of the
discovered `.ll` files (file discovery and reading are I/O); `none`
models the `SubstanceError` returned when no files are found. -/
def analyze_llvm_ir_from_target_dir (dem : Str → Str) (llFiles : List Str) :
    Option (List (Str × LlvmFunction)) :=
  if llFiles = [] then none
  else some ((llFiles.map (analyze_llvm_ir_data dem)).foldl mergeFileInto [])

/-! ## `src/object.rs`: symbol deduplication and the dependency index -/

/-- `binfarce::demangle::SymbolData` as consumed by `collect_self_data`
(the demangled-name record is irrelevant to deduplication and flattened
to one string). -/
structure SymbolData where
  name : Str
  address : Nat
  size : Nat
deriving DecidableEq

/-- Sorting key order of `d.symbols.sort_by_key(|v| v.address)`. -/
def addrLE (a b : SymbolData) : Prop := a.address ≤ b.address

instance : DecidableRel addrLE := fun a b => Nat.decLe a.address b.address

instance : IsTotal SymbolData addrLE := ⟨fun a b => Nat.le_total a.address b.address⟩

instance : IsTrans SymbolData addrLE := ⟨fun _ _ _ h h' => Nat.le_trans h h'⟩

/-- Helper of `dedupConsecByKey`: `last` is the previously retained
element; drop followers with the same key (Rust `Vec::dedup_by_key`). -/
def dedupConsecAux {α κ : Type} [DecidableEq κ] (key : α → κ) (last : α) :
    List α → List α
  | [] => []
  | y :: ys =>
    if key y = key last then dedupConsecAux key last ys
    else y :: dedupConsecAux key y ys

/-- Rust `Vec::dedup_by_key`: collapse consecutive runs of equal keys,
keeping the first element of each run. -/
def dedupConsecByKey {α κ : Type} [DecidableEq κ] (key : α → κ) :
    List α → List α
  | [] => []
  | x :: xs => x :: dedupConsecAux key x xs

/-- The symbol normalization of `object::collect_self_data` applied to
whatever symbol list the format-specific parser produced: stable sort by
address (`sort_by_key` is stable), then `dedup_by_key` on the address. -/
def collect_self_data_symbols (symbols : List SymbolData) : List SymbolData :=
  dedupConsecByKey (·.address) (List.insertionSort addrLE symbols)

/-- `object::collect_deps_symbols`, over the member-symbol lists parsed
out of each archive (`ar::parse` is file I/O): build the multimap by
inserting `(sym, name)` pairs archive by archive, then `Vec::dedup` each
value list. -/
def collect_deps_symbols (libs : List (Str × List Str)) :
    List (Str × List Str) :=
  let m := libs.foldl
    (fun m p => p.2.foldl
      (fun m sym => updateEntry sym (fun v => v ++ [p.1]) [p.1] m) m)
    []
  m.map (fun p => (p.1, dedupConsecByKey id p.2))

/-! ## `src/lib.rs`: `AnalysisComparison::compare`, symbol changes

The symbol-change computation of `AnalysisComparison::compare` (the
enriched and fallback branches are identical on these fields: symbols
are indexed by trimmed demangled name, sizes summed per name).  The
`HashSet` union of names is modelled as before-keys followed by the
after-only keys; the source iterates it in unspecified order. -/

/-- The per-symbol data consulted by the comparison: the complete and
trimmed demangled names and the symbol's size. -/
structure CmpSymbol where
  complete : Str
  trimmed : Str
  size : Nat
deriving DecidableEq

/-- `lib::SymbolChange`. -/
structure SymbolChange where
  name : Str
  demangled : Str
  size_before : Option Nat
  size_after : Option Nat
deriving DecidableEq

/-- The indexing loop: `entry(key).or_insert((symbol, 0)); entry.1 += size`. -/
def buildSizeIndex (symbols : List CmpSymbol) :
    List (Str × (CmpSymbol × Nat)) :=
  symbols.foldl
    (fun m symbol =>
      updateEntry symbol.trimmed (fun e => (e.1, e.2 + symbol.size))
        (symbol, symbol.size) m)
    []

/-- The symbol-change part of `AnalysisComparison::compare`. -/
def compare_symbol_changes (before after : List CmpSymbol) :
    List SymbolChange :=
  let beforeIdx := buildSizeIndex before
  let afterIdx := buildSizeIndex after
  let beforeKeys := beforeIdx.map (·.1)
  let afterKeys := afterIdx.map (·.1)
  let allDemangled := beforeKeys ++ afterKeys.filter (· ∉ beforeKeys)
  allDemangled.map (fun demangled =>
    let beforeInfo := assocLookup demangled beforeIdx
    let afterInfo := assocLookup demangled afterIdx
    let mangledName :=
      match beforeInfo, afterInfo with
      | some e, _ => e.1.complete
      | none, some e => e.1.complete
      | none, none => demangled
    { name := mangledName, demangled := demangled,
      size_before := beforeInfo.map (·.2),
      size_after := afterInfo.map (·.2) })

/-! ## Concrete inputs for the scenario claims -/

/-- The ambiguous trait-impl symbol of the attribution scenario. -/
def euclidResvgSym : Str :=
  "<euclid::rect::TypedRect<f64> as resvg::geom::RectExt>::x".data

/-- A context whose dependency index records `euclidResvgSym` under the
unit `resvg` and under no other unit. -/
def euclidResvgContext : BuildContext :=
  ⟨[], [], [(euclidResvgSym, ["resvg".data])]⟩

/-- A context with an empty index and empty crate sets. -/
def emptyContext : BuildContext := ⟨[], [], []⟩

/-- IR text: `foo` defined once with a 4-statement body, `bar` defined
twice with body lengths 4 and 2. -/
def sampleIr : Str :=
  ("define i32 @foo(i32 %x) \x7b\n  a\n  b\n  c\n  d\n\x7d\n\n" ++
   "define i32 @bar() \x7b\n  a\n  b\n  c\n  d\n\x7d\n\n" ++
   "define i32 @bar() \x7b\n  a\n  b\n\x7d\n").data

/-- IR text defining a function whose parsed name is empty. -/
def emptyNameIr : Str := "define @()\n\x7d\n".data

/-- Before-snapshot symbols of the comparison scenario. -/
def cmpBefore : List CmpSymbol :=
  [⟨"foo::bar".data, "foo::bar".data, 100⟩,
   ⟨"baz::qux".data, "baz::qux".data, 200⟩,
   ⟨"removed::symbol".data, "removed::symbol".data, 50⟩]

/-- After-snapshot symbols of the comparison scenario. -/
def cmpAfter : List CmpSymbol :=
  [⟨"foo::bar".data, "foo::bar".data, 150⟩,
   ⟨"baz::qux".data, "baz::qux".data, 200⟩,
   ⟨"new::symbol".data, "new::symbol".data, 75⟩]

/-- Archive list with the same unit's occurrences for one key interleaved
with a different unit's. -/
def interleavedLibs : List (Str × List Str) :=
  [("a".data, ["k".data]), ("b".data, ["k".data]), ("a".data, ["k".data])]

/-! ## Claim theorems -/

/-- C1: for the mangled legacy symbol
`<euclid::rect::TypedRect<f64> as resvg::geom::RectExt>::x`, with the
dependency symbol index recording the complete symbol string under unit
`resvg` only, attribution resolution returns `(resvg, exact = true)` —
both through the full resolver `from_sym` (index hit) and through the
legacy trait-impl disambiguation of `parse_sym`. -/
theorem trait_impl_symbol_attributes_to_indexed_unit :
    from_sym euclidResvgContext .Split
        ⟨euclidResvgSym, euclidResvgSym, none, .Legacy⟩ =
      some ("resvg".data, true) ∧
    parse_sym euclidResvgContext euclidResvgSym = some ("resvg".data, true) := by
  constructor
  · decide
  · decide

/-- C2: the IR analysis of a text containing `foo` defined once with a
4-statement body and `bar` defined twice with body lengths 4 and 2
returns exactly 2 entries: `foo` with `copies = 1, total_lines = 4` and
`bar` with `copies = 2, total_lines = 6`. -/
theorem ir_analysis_two_function_scenario :
    (analyze_llvm_ir_data id sampleIr).length = 2 ∧
    assocLookup "foo".data (analyze_llvm_ir_data id sampleIr) =
      some ⟨[], 4, 1⟩ ∧
    assocLookup "bar".data (analyze_llvm_ir_data id sampleIr) =
      some ⟨[], 6, 2⟩ := by
  refine ⟨by decide, by decide, by decide⟩

/-- C6: comparing the before-snapshot `{foo::bar: 100, baz::qux: 200,
removed::symbol: 50}` with the after-snapshot `{foo::bar: 150,
baz::qux: 200, new::symbol: 75}` yields exactly the four changes
`foo::bar {100, 150}`, `baz::qux {200, 200}` (equal sizes),
`removed::symbol {50, none}` and `new::symbol {none, 75}` — `none`
marks absence, never zero. -/
theorem comparison_scenario :
    (compare_symbol_changes cmpBefore cmpAfter).length = 4 ∧
    (⟨"foo::bar".data, "foo::bar".data, some 100, some 150⟩ : SymbolChange) ∈
      compare_symbol_changes cmpBefore cmpAfter ∧
    (⟨"baz::qux".data, "baz::qux".data, some 200, some 200⟩ : SymbolChange) ∈
      compare_symbol_changes cmpBefore cmpAfter ∧
    (⟨"new::symbol".data, "new::symbol".data, none, some 75⟩ : SymbolChange) ∈
      compare_symbol_changes cmpBefore cmpAfter ∧
    (⟨"removed::symbol".data, "removed::symbol".data, some 50, none⟩ : SymbolChange) ∈
      compare_symbol_changes cmpBefore cmpAfter := by
  refine ⟨by decide, by decide, by decide, by decide, by decide⟩

/-- C7: the resolver is *not* total: on the malformed legacy symbol
`"<::x"` (a leading `<` followed only by `::` and more text)
`parse_crate_from_sym` evaluates `split_whitespace().last().unwrap()` on
an empty string and panics (modelled as `none`), and the panic reaches
`from_sym`.  This contradicts the specified no-panic contract. -/
theorem resolver_panics_on_bare_angle_symbol :
    parse_crate_from_sym "<::x".data = none ∧
    from_sym emptyContext .Split ⟨"<::x".data, "<::x".data, none, .Legacy⟩ =
      none := by
  constructor
  · decide
  · decide

/-- C9 counterexample: building the index from archives
`[(a, [k]), (b, [k]), (a, [k])]` leaves the duplicate unit `a` in the
value list for key `k` — `Vec::dedup` only collapses *consecutive*
duplicates, so interleaved duplicates survive, refuting the claim that
the list contains no duplicates. -/
theorem deps_index_keeps_interleaved_duplicate :
    assocLookup "k".data (collect_deps_symbols interleavedLibs) =
      some ["a".data, "b".data, "a".data] ∧
    ¬ (["a".data, "b".data, "a".data] : List Str).Nodup := by
  constructor
  · decide
  · decide

/-- C10 counterexample: for the IR text `define @()` followed by `}` the
parsed function name is the empty string, so the map holds the key `""`
with a value whose `name` field (always `""`) *equals* the key, refuting
"the value's name field never equals the key for any parsed function". -/
theorem ir_value_name_equals_empty_key :
    assocLookup [] (analyze_llvm_ir_data id emptyNameIr) = some ⟨[], 0, 1⟩ ∧
    (LlvmFunction.mk [] 0 1).name = ([] : Str) := by
  constructor
  · decide
  · rfl

/-! ## C4: hash stripping -/

theorem getLast?_mem_of_eq_some {α : Type} {l : List α} {a : α}
    (h : l.getLast? = some a) : a ∈ l := by
  induction l with
  | nil => simp at h
  | cons x xs ih =>
    cases xs with
    | nil => simp_all
    | cons y ys =>
      rw [List.getLast?_cons_cons] at h
      exact List.mem_cons_of_mem x (ih h)

theorem rfindSub_some {pat s : Str} {i : Nat} (h : rfindSub pat s = some i) :
    leadsWith pat (s.drop i) = true := by
  have hm := getLast?_mem_of_eq_some h
  exact (List.mem_filter.mp hm).2

/-- C4: `strip_hash "foo::bar::h9e2b8a2a7a115765"` gives `"foo::bar"`;
`strip_hash "serde::ser::Serialize::serialize"` is unchanged; a
15-hex-digit suffix is not stripped; and whenever `strip_hash` changes
its input, the removed part is `"::h"` followed by exactly 16
lowercase-hex characters at the end of the name. -/
theorem strip_hash_spec :
    strip_hash "foo::bar::h9e2b8a2a7a115765".data = "foo::bar".data ∧
    strip_hash "serde::ser::Serialize::serialize".data =
      "serde::ser::Serialize::serialize".data ∧
    strip_hash "foo::bar::h9e2b8a2a7a11576".data =
      "foo::bar::h9e2b8a2a7a11576".data ∧
    ∀ s : Str, strip_hash s ≠ s →
      ∃ pre suffix, s = pre ++ "::h".data ++ suffix ∧
        suffix.length = 16 ∧ suffix.all stripHashChar = true ∧
        strip_hash s = pre := by
  refine ⟨by decide, by decide, by decide, ?_⟩
  intro s hne
  cases hr : rfindSub "::h".data s with
  | none =>
    exfalso
    apply hne
    unfold strip_hash
    rw [hr]
  | some hash_pos =>
    by_cases hcond :
        (decide ((s.drop (hash_pos + 3)).length = 16) &&
          (s.drop (hash_pos + 3)).all stripHashChar) = true
    · have hstrip : strip_hash s = s.take hash_pos := by
        unfold strip_hash
        rw [hr]
        simp only
        rw [if_pos hcond]
      have hlen : (s.drop (hash_pos + 3)).length = 16 :=
        of_decide_eq_true (Bool.and_elim_left hcond)
      have hall : (s.drop (hash_pos + 3)).all stripHashChar = true :=
        Bool.and_elim_right hcond
      refine ⟨s.take hash_pos, s.drop (hash_pos + 3), ?_, hlen, hall, hstrip⟩
      have hl := rfindSub_some hr
      obtain ⟨t, ht⟩ := (leadsWith_iff _ _).mp hl
      have ht' : t = s.drop (hash_pos + 3) := by
        have h2 : ("::h".data ++ t).drop ("::h".data).length = t :=
          drop_len_append "::h".data t
        rw [← ht] at h2
        rw [← h2]
        show (s.drop hash_pos).drop 3 = s.drop (hash_pos + 3)
        exact List.drop_drop 3 hash_pos s
      conv_lhs => rw [← List.take_append_drop hash_pos s]
      rw [ht, ht', List.append_assoc]
    · exfalso
      apply hne
      unfold strip_hash
      rw [hr]
      simp only
      rw [if_neg hcond]

/-- Witness for `strip_hash_spec`: the general clause instantiated at the
stripped example. -/
theorem strip_hash_spec_witness :
    ∃ pre suffix,
      "foo::bar::h9e2b8a2a7a115765".data = pre ++ "::h".data ++ suffix ∧
      suffix.length = 16 ∧ suffix.all stripHashChar = true ∧
      strip_hash "foo::bar::h9e2b8a2a7a115765".data = pre :=
  strip_hash_spec.2.2.2 "foo::bar::h9e2b8a2a7a115765".data (by decide)

/-! ## C8: the empty unit name on the legacy no-separator path -/

theorem subOf_of_subOf_take {pat s : Str} {i : Nat}
    (h : SubOf pat (s.take i)) : SubOf pat s := by
  obtain ⟨pre, suf, hps⟩ := h
  refine ⟨pre, suf ++ s.drop i, ?_⟩
  conv_lhs => rw [← List.take_append_drop i s]
  rw [hps]
  simp [List.append_assoc]

theorem subOf_of_subOf_drop {pat s : Str} {i : Nat}
    (h : SubOf pat (s.drop i)) : SubOf pat s := by
  obtain ⟨pre, suf, hps⟩ := h
  refine ⟨s.take i ++ pre, suf, ?_⟩
  conv_lhs => rw [← List.take_append_drop i s]
  rw [hps]
  simp [List.append_assoc]

theorem strContains_false_take {s pat : Str} (i : Nat)
    (h : strContains s pat = false) : strContains (s.take i) pat = false := by
  cases h' : strContains (s.take i) pat
  · rfl
  · exfalso
    have hsub : SubOf pat s :=
      subOf_of_subOf_take ((strContains_true_iff _ _).mp h')
    rw [← strContains_true_iff] at hsub
    rw [h] at hsub
    exact Bool.noConfusion hsub

theorem strContains_false_drop {s pat : Str} (i : Nat)
    (h : strContains s pat = false) : strContains (s.drop i) pat = false := by
  cases h' : strContains (s.drop i) pat
  · rfl
  · exfalso
    have hsub : SubOf pat s :=
      subOf_of_subOf_drop ((strContains_true_iff _ _).mp h')
    rw [← strContains_true_iff] at hsub
    rw [h] at hsub
    exact Bool.noConfusion hsub

theorem parse_crate_from_sym_no_sep {s : Str}
    (h : strContains s "::".data = false) :
    parse_crate_from_sym s = some [] := by
  unfold parse_crate_from_sym
  rw [h]
  simp

/-- On a legacy symbol with no `::` the parser returns the empty crate
name with `is_exact = true`, through both branches of the `" as "`
split. -/
theorem parse_sym_no_sep (d : BuildContext) {s : Str}
    (h : strContains s "::".data = false) :
    parse_sym d s = some ([], true) := by
  unfold parse_sym
  cases hAs : findSub " as ".data s with
  | none =>
    simp [parse_crate_from_sym_no_sep h]
  | some i =>
    have h0 : strContains (s.take i) "::".data = false :=
      strContains_false_take i h
    have hrest : strContains (s.drop (i + 4)) "::".data = false :=
      strContains_false_drop (i + 4) h
    cases hAs2 : findSub " as ".data (s.drop (i + 4)) with
    | none =>
      simp [hAs2, parse_crate_from_sym_no_sep h0,
        parse_crate_from_sym_no_sep hrest]
    | some j =>
      have h1 : strContains ((s.drop (i + 4)).take j) "::".data = false :=
        strContains_false_take j hrest
      simp [hAs2, parse_crate_from_sym_no_sep h0,
        parse_crate_from_sym_no_sep h1]

/-- C8 counterexample: the legacy symbol `"foo"` (no `::`, absent from
the index) resolves to the *empty* unit name, not to the sentinel
`"[Unknown]"`, refuting "the unit name returned by attribution is never
empty". -/
theorem legacy_attribution_returns_empty_name :
    from_sym emptyContext .Split ⟨"foo".data, "foo".data, none, .Legacy⟩ =
      some ([], true) ∧
    ([] : Str) ≠ UNKNOWN := by
  constructor
  · decide
  · decide

/-- C8 amended: for a legacy-scheme symbol whose text contains no `::`
and whose complete string is absent from the dependency index, the
resolver returns the *empty* unit name (with `exact = true`); the
`"[Unknown]"` sentinel is produced only on the versioned-scheme fallback
and unknown-scheme paths. -/
theorem legacy_attribution_no_sep_empty (context : BuildContext)
    (sym : SymbolName) (hk : sym.kind = .Legacy)
    (hc : strContains sym.complete "::".data = false)
    (hi : assocLookup sym.complete context.deps_symbols = none) :
    from_sym context .Split sym = some ([], true) := by
  unfold from_sym from_sym_impl multiMapGet
  rw [hi, hk]
  simp [parse_sym_no_sep context hc]

/-- Witness for `legacy_attribution_no_sep_empty` at the symbol `"foo"`
and the empty context. -/
theorem legacy_attribution_no_sep_empty_witness :
    from_sym emptyContext .Split ⟨"bar".data, "bar".data, none, .Legacy⟩ =
      some ([], true) :=
  legacy_attribution_no_sep_empty emptyContext
    ⟨"bar".data, "bar".data, none, .Legacy⟩ rfl (by decide) (by decide)

/-! ## C9: consecutive deduplication of the dependency index -/

theorem chain_ne_dedupConsecAux {α κ : Type} [DecidableEq κ] (key : α → κ) :
    ∀ (ys : List α) (last : α),
      List.Chain' (fun a b => key a ≠ key b) (last :: dedupConsecAux key last ys)
  | [], _ => by simp [dedupConsecAux]
  | y :: ys, last => by
    unfold dedupConsecAux
    by_cases h : key y = key last
    · rw [if_pos h]
      exact chain_ne_dedupConsecAux key ys last
    · rw [if_neg h]
      rw [List.chain'_cons]
      exact ⟨fun h' => h h'.symm, chain_ne_dedupConsecAux key ys y⟩

theorem chain_ne_dedupConsecByKey {α κ : Type} [DecidableEq κ] (key : α → κ)
    (l : List α) :
    List.Chain' (fun a b => key a ≠ key b) (dedupConsecByKey key l) := by
  cases l with
  | nil => simp [dedupConsecByKey]
  | cons x xs => exact chain_ne_dedupConsecAux key xs x

theorem assocLookup_map_values {β γ : Type} (k : Str) (f : β → γ)
    (m : List (Str × β)) :
    assocLookup k (m.map (fun p => (p.1, f p.2))) = (assocLookup k m).map f := by
  induction m with
  | nil => rfl
  | cons p rest ih =>
    by_cases h : p.1 = k <;> simp [assocLookup, h, ih]

/-- C9 amended: after index construction, every key's unit-name list is
free of *adjacent* duplicates — `Vec::dedup` collapses consecutive
duplicate `(symbol, unit)` pairs, and that is all it guarantees. -/
theorem deps_index_no_adjacent_duplicates (libs : List (Str × List Str))
    (k : Str) (units : List Str)
    (h : assocLookup k (collect_deps_symbols libs) = some units) :
    units.Chain' (· ≠ ·) := by
  unfold collect_deps_symbols at h
  rw [assocLookup_map_values] at h
  cases hm : assocLookup k
      (libs.foldl
        (fun m p => p.2.foldl
          (fun m sym => updateEntry sym (fun v => v ++ [p.1]) [p.1] m) m)
        []) with
  | none =>
    rw [hm] at h
    exact absurd h (by simp)
  | some v =>
    rw [hm] at h
    simp only [Option.map_some'] at h
    cases h
    exact chain_ne_dedupConsecByKey id v

/-- Witness for `deps_index_no_adjacent_duplicates` at the interleaved
archive list. -/
theorem deps_index_no_adjacent_duplicates_witness :
    (["a".data, "b".data, "a".data] : List Str).Chain' (· ≠ ·) :=
  deps_index_no_adjacent_duplicates interleavedLibs "k".data
    ["a".data, "b".data, "a".data] (by decide)

/-! ## C10: the value's `name` field is always empty -/

theorem updateEntry_preserves {β : Type} (Q : β → Prop) (k : Str) (f : β → β)
    (d : β) (m : List (Str × β)) (hf : ∀ v, Q v → Q (f v)) (hd : Q d)
    (hm : ∀ p ∈ m, Q p.2) : ∀ p ∈ updateEntry k f d m, Q p.2 := by
  induction m with
  | nil =>
    intro p hp
    simp only [updateEntry, List.mem_singleton] at hp
    subst hp
    exact hd
  | cons q rest ih =>
    intro p hp
    by_cases h : q.1 = k
    · simp only [updateEntry] at hp
      rw [if_pos h] at hp
      rcases List.mem_cons.mp hp with h' | h'
      · subst h'
        exact hf _ (hm q (List.mem_cons_self q rest))
      · exact hm p (List.mem_cons_of_mem q h')
    · simp only [updateEntry] at hp
      rw [if_neg h] at hp
      rcases List.mem_cons.mp hp with h' | h'
      · rw [h']
        exact hm q (List.mem_cons_self q rest)
      · exact ih (fun r hr => hm r (List.mem_cons_of_mem q hr)) p h'
  
theorem irStep_name_empty (dem : Str → Str) (st : IrState) (line : Str)
    (h : ∀ p ∈ st.map, p.2.name = []) :
    ∀ p ∈ (irStep dem st line).map, p.2.name = [] := by
  unfold irStep
  by_cases h1 : leadsWith "define ".data line = true
  · rw [if_pos h1]
    exact h
  · rw [if_neg h1]
    by_cases h2 : line = "\x7d".data
    · rw [if_pos h2]
      cases hc : st.current with
      | none => exact h
      | some name =>
        simp only
        exact updateEntry_preserves (fun v => v.name = []) name
          (fun func => record_lines func st.count) ⟨[], st.count, 1⟩ st.map
          (fun v (hv : v.name = []) =>
            show (record_lines v st.count).name = [] from hv) rfl h
    · rw [if_neg h2]
      by_cases h3 :
          (leadsWith "  ".data line && ! leadsWith "   ".data line) = true
      · rw [if_pos h3]; exact h
      · rw [if_neg h3]; exact h

theorem foldl_irStep_name_empty (dem : Str → Str) (lines : List Str) :
    ∀ st : IrState, (∀ p ∈ st.map, p.2.name = []) →
      ∀ p ∈ (lines.foldl (irStep dem) st).map, p.2.name = [] := by
  induction lines with
  | nil => intro st h; exact h
  | cons l rest ih =>
    intro st h
    exact ih (irStep dem st l) (irStep_name_empty dem st l h)

theorem assocLookup_mem {β : Type} {k : Str} {v : β} {m : List (Str × β)}
    (h : assocLookup k m = some v) : (k, v) ∈ m := by
  induction m with
  | nil => exact absurd h (by simp [assocLookup])
  | cons p rest ih =>
    by_cases hk : p.1 = k
    · rw [show p = (p.1, p.2) from rfl, assocLookup, if_pos hk] at h
      cases h
      rw [← hk]
      exact List.mem_cons_self _ _
    · rw [show p = (p.1, p.2) from rfl, assocLookup, if_neg hk] at h
      exact List.mem_cons_of_mem p (ih h)

/-- C10 amended: every value stored by the per-file IR analysis carries
the empty string in its `name` field (identity lives in the map key
alone), so the `name` field differs from the key exactly when the key is
nonempty. -/
theorem ir_value_name_always_empty (dem : Str → Str) (ir : Str) (k : Str)
    (v : LlvmFunction) (h : assocLookup k (analyze_llvm_ir_data dem ir) = some v) :
    v.name = [] ∧ (k ≠ [] → v.name ≠ k) := by
  have hv : v.name = [] := by
    have hmem := assocLookup_mem h
    exact foldl_irStep_name_empty dem (rustLines ir) ⟨none, 0, []⟩
      (by intro p hp; exact absurd hp (List.not_mem_nil p)) (k, v) hmem
  exact ⟨hv, fun hk => by rw [hv]; exact fun h' => hk h'.symm⟩

/-- Witness for `ir_value_name_always_empty` at the two-function sample
IR and key `foo`. -/
theorem ir_value_name_always_empty_witness :
    (LlvmFunction.mk [] 4 1).name = [] ∧
      ("foo".data ≠ [] → (LlvmFunction.mk [] 4 1).name ≠ "foo".data) :=
  ir_value_name_always_empty id sampleIr "foo".data ⟨[], 4, 1⟩ (by decide)

/-! ## C5: merge order invariance -/

/-- The values a file map holds under key `k` (in entry order). -/
def keyVals (k : Str) (m : List (Str × LlvmFunction)) : List LlvmFunction :=
  (m.filter (fun p => decide (p.1 = k))).map (fun p => p.2)

/-- One merge action on the value under a single key. -/
def mergeStep (o : Option LlvmFunction) (v : LlvmFunction) :
    Option LlvmFunction :=
  some (match o with | none => v | some e => bumpMerge e v)

/-- The `(total_lines, copies)` view of a map value. -/
def projLC (f : LlvmFunction) : Nat × Nat := (f.lines, f.copies)

/-- One merge action on the `(total_lines, copies)` view. -/
def sumStep (s : Option (Nat × Nat)) (v : LlvmFunction) : Option (Nat × Nat) :=
  some (match s with
        | none => (v.lines, v.copies)
        | some q => (q.1 + v.lines, q.2 + v.copies))

theorem assocLookup_mergeFileInto (k : Str)
    (fm : List (Str × LlvmFunction)) :
    ∀ acc, assocLookup k (mergeFileInto acc fm) =
      (keyVals k fm).foldl mergeStep (assocLookup k acc) := by
  induction fm with
  | nil => intro acc; rfl
  | cons p rest ih =>
    intro acc
    show assocLookup k
        (mergeFileInto (updateEntry p.1 (fun e => bumpMerge e p.2) p.2 acc) rest) = _
    rw [ih]
    by_cases h : p.1 = k
    · have hk : keyVals k (p :: rest) = p.2 :: keyVals k rest := by
        simp [keyVals, h]
      rw [hk, List.foldl_cons]
      congr 1
      rw [assocLookup_updateEntry, if_pos h]
      cases assocLookup k acc <;> rfl
    · have hk : keyVals k (p :: rest) = keyVals k rest := by
        simp [keyVals, h]
      rw [hk]
      congr 1
      rw [assocLookup_updateEntry, if_neg h]

theorem assocLookup_foldl_merge (k : Str)
    (maps : List (List (Str × LlvmFunction))) :
    ∀ acc, assocLookup k (maps.foldl mergeFileInto acc) =
      ((maps.map (keyVals k)).flatten).foldl mergeStep (assocLookup k acc) := by
  induction maps with
  | nil => intro acc; rfl
  | cons fm rest ih =>
    intro acc
    simp only [List.foldl_cons, List.map_cons, List.flatten_cons,
      List.foldl_append]
    rw [ih, assocLookup_mergeFileInto]

theorem map_projLC_foldl_mergeStep (vs : List LlvmFunction) :
    ∀ o : Option LlvmFunction,
      (vs.foldl mergeStep o).map projLC = vs.foldl sumStep (o.map projLC) := by
  induction vs with
  | nil => intro o; rfl
  | cons v vs ih =>
    intro o
    simp only [List.foldl_cons]
    rw [ih]
    congr 1
    cases o <;> rfl

theorem foldl_sumStep_some (vs : List LlvmFunction) :
    ∀ a b : Nat, vs.foldl sumStep (some (a, b)) =
      some (a + (vs.map (·.lines)).sum, b + (vs.map (·.copies)).sum) := by
  induction vs with
  | nil => intro a b; simp
  | cons v vs ih =>
    intro a b
    simp only [List.foldl_cons, sumStep, List.map_cons, List.sum_cons]
    rw [ih]
    congr 2 <;> omega

theorem foldl_sumStep_none (vs : List LlvmFunction) :
    vs.foldl sumStep none =
      if vs = [] then none
      else some ((vs.map (·.lines)).sum, (vs.map (·.copies)).sum) := by
  cases vs with
  | nil => rfl
  | cons v vs =>
    simp only [List.foldl_cons, sumStep]
    rw [foldl_sumStep_some]
    simp

/-- C5: with a fixed multiset of IR file contents, analyzing the files in
any order (any permutation, hence any worker-completion order) yields the
same `(total_lines, copies)` for every function name: the per-name merge
is a fold of an associative-commutative sum. -/
theorem ir_merge_order_invariant (dem : Str → Str) (files1 files2 : List Str)
    (hp : files1.Perm files2) (k : Str) :
    (analyze_llvm_ir_from_target_dir dem files1).map
        (fun m => (assocLookup k m).map projLC) =
      (analyze_llvm_ir_from_target_dir dem files2).map
        (fun m => (assocLookup k m).map projLC) := by
  unfold analyze_llvm_ir_from_target_dir
  by_cases h1 : files1 = []
  · subst h1
    have h2 : files2 = [] := hp.symm.eq_nil
    subst h2
    rfl
  · have h2 : files2 ≠ [] := fun he => h1 (by subst he; exact hp.eq_nil)
    rw [if_neg h1, if_neg h2]
    simp only [Option.map_some']
    congr 1
    have hm : (files1.map (analyze_llvm_ir_data dem)).Perm
        (files2.map (analyze_llvm_ir_data dem)) := hp.map _
    have hflat : ((files1.map (analyze_llvm_ir_data dem)).map (keyVals k)).flatten.Perm
        ((files2.map (analyze_llvm_ir_data dem)).map (keyVals k)).flatten :=
      (hm.map (keyVals k)).flatten
    rw [assocLookup_foldl_merge, assocLookup_foldl_merge,
      map_projLC_foldl_mergeStep, map_projLC_foldl_mergeStep]
    have hinit :
        (assocLookup k ([] : List (Str × LlvmFunction))).map projLC = none := rfl
    rw [hinit, foldl_sumStep_none, foldl_sumStep_none]
    by_cases hfe :
        ((files1.map (analyze_llvm_ir_data dem)).map (keyVals k)).flatten = []
    · have hfe2 :
          ((files2.map (analyze_llvm_ir_data dem)).map (keyVals k)).flatten = [] :=
        ((hfe ▸ hflat : ([] : List LlvmFunction).Perm _).symm).eq_nil
      rw [if_pos hfe, if_pos hfe2]
    · have hfe2 :
          ((files2.map (analyze_llvm_ir_data dem)).map (keyVals k)).flatten ≠ [] :=
        fun he => hfe (List.Perm.eq_nil (he ▸ hflat))
      rw [if_neg hfe, if_neg hfe2,
        (hflat.map (fun f => f.lines)).sum_eq,
        (hflat.map (fun f => f.copies)).sum_eq]

/-- Witness for `ir_merge_order_invariant`: two IR files analyzed in both
orders agree at key `foo`. -/
theorem ir_merge_order_invariant_witness :
    (analyze_llvm_ir_from_target_dir id [sampleIr, emptyNameIr]).map
        (fun m => (assocLookup "foo".data m).map projLC) =
      (analyze_llvm_ir_from_target_dir id [emptyNameIr, sampleIr]).map
        (fun m => (assocLookup "foo".data m).map projLC) :=
  ir_merge_order_invariant id [sampleIr, emptyNameIr] [emptyNameIr, sampleIr]
    (List.Perm.swap emptyNameIr sampleIr []) "foo".data

/-! ## C3: deduplication by address -/

theorem dedupConsecAux_sublist {α κ : Type} [DecidableEq κ] (key : α → κ) :
    ∀ (ys : List α) (last : α), List.Sublist (dedupConsecAux key last ys) ys
  | [], _ => List.Sublist.refl []
  | y :: ys, last => by
    unfold dedupConsecAux
    by_cases h : key y = key last
    · rw [if_pos h]
      exact (dedupConsecAux_sublist key ys last).cons y
    · rw [if_neg h]
      exact (dedupConsecAux_sublist key ys y).cons₂ y

theorem filter_orderedInsert_addr (a : Nat) (x : SymbolData) :
    ∀ m : List SymbolData,
      (List.orderedInsert addrLE x m).filter (fun s => decide (s.address = a)) =
        if x.address = a then
          x :: m.filter (fun s => decide (s.address = a))
        else m.filter (fun s => decide (s.address = a))
  | [] => by
    by_cases hx : x.address = a <;> simp [List.orderedInsert, hx]
  | b :: bs => by
    by_cases hr : addrLE x b
    · simp only [List.orderedInsert, if_pos hr]
      by_cases hx : x.address = a <;> simp [List.filter_cons, hx]
    · simp only [List.orderedInsert, if_neg hr]
      have hb : b.address < x.address := Nat.lt_of_not_le hr
      rw [List.filter_cons, List.filter_cons, filter_orderedInsert_addr a x bs]
      by_cases hx : x.address = a
      · have hbne : ¬ b.address = a := fun h => by
          rw [h, ← hx] at hb; exact Nat.lt_irrefl _ hb
        simp [hx, hbne]
      · by_cases hbeq : b.address = a <;> simp [hx, hbeq]

theorem filter_insertionSort_addr (a : Nat) (l : List SymbolData) :
    (List.insertionSort addrLE l).filter (fun s => decide (s.address = a)) =
      l.filter (fun s => decide (s.address = a)) := by
  induction l with
  | nil => rfl
  | cons x xs ih =>
    simp only [List.insertionSort]
    rw [filter_orderedInsert_addr, ih]
    by_cases hx : x.address = a
    · rw [if_pos hx, List.filter_cons, if_pos (by simp [hx])]
    · rw [if_neg hx, List.filter_cons, if_neg (by simp [hx])]

theorem filter_dedupConsecAux_addr (a : Nat) :
    ∀ (xs : List SymbolData) (last : SymbolData),
      List.Pairwise addrLE (last :: xs) →
      (dedupConsecAux (fun s => s.address) last xs).filter
          (fun s => decide (s.address = a)) =
        if last.address = a then []
        else (xs.filter (fun s => decide (s.address = a))).take 1
  | [], last => by
    intro _
    by_cases h : last.address = a <;> simp [dedupConsecAux, h]
  | y :: ys, last => by
    intro hp
    have hly : addrLE last y :=
      (List.pairwise_cons.mp hp).1 y (List.mem_cons_self y ys)
    have hpyys : List.Pairwise addrLE (y :: ys) := (List.pairwise_cons.mp hp).2
    have hplys : List.Pairwise addrLE (last :: ys) := by
      rw [List.pairwise_cons] at hp ⊢
      exact ⟨fun z hz => hp.1 z (List.mem_cons_of_mem y hz),
        (List.pairwise_cons.mp hp.2).2⟩
    unfold dedupConsecAux
    by_cases he : y.address = last.address
    · rw [if_pos he, filter_dedupConsecAux_addr a ys last hplys]
      by_cases hl : last.address = a
      · rw [if_pos hl, if_pos hl]
      · rw [if_neg hl, if_neg hl, List.filter_cons,
          if_neg (by simp [he, hl])]
    · rw [if_neg he, List.filter_cons, filter_dedupConsecAux_addr a ys y hpyys]
      by_cases hy : y.address = a
      · have hl : ¬ last.address = a := fun h => he (by rw [hy, h])
        rw [if_pos (by simp [hy]), if_pos hy, if_neg hl, List.filter_cons,
          if_pos (by simp [hy])]
        rfl
      · rw [if_neg (by simp [hy]), if_neg hy]
        by_cases hl : last.address = a
        · rw [if_pos hl]
          have hlty : last.address < y.address :=
            Nat.lt_of_le_of_ne hly (fun h => he h.symm)
          have hfe : ys.filter (fun s => decide (s.address = a)) = [] := by
            rw [List.filter_eq_nil_iff]
            intro z hz
            have hyz : addrLE y z := (List.pairwise_cons.mp hpyys).1 z hz
            have : a < z.address := by
              rw [← hl]
              exact Nat.lt_of_lt_of_le hlty hyz
            simp
            omega
          rw [hfe]
          rfl
        · rw [if_neg hl, List.filter_cons, if_neg (by simp [hy])]

theorem filter_dedup_sorted_addr (a : Nat) (m : List SymbolData)
    (hs : List.Pairwise addrLE m) :
    (dedupConsecByKey (fun s => s.address) m).filter
        (fun s => decide (s.address = a)) =
      (m.filter (fun s => decide (s.address = a))).take 1 := by
  cases m with
  | nil => rfl
  | cons x xs =>
    unfold dedupConsecByKey
    rw [List.filter_cons, filter_dedupConsecAux_addr a xs x hs]
    by_cases hx : x.address = a
    · rw [if_pos (by simp [hx]), if_pos hx, List.filter_cons,
        if_pos (by simp [hx])]
      rfl
    · rw [if_neg (by simp [hx]), if_neg hx, List.filter_cons,
        if_neg (by simp [hx])]

theorem addr_lt_of_mem_dedupConsecAux :
    ∀ (xs : List SymbolData) (last z : SymbolData),
      List.Pairwise addrLE (last :: xs) →
      z ∈ dedupConsecAux (fun s => s.address) last xs →
      last.address < z.address
  | [], _, _ => fun _ hz => absurd hz (List.not_mem_nil _)
  | y :: ys, last, z => by
    intro hp hz
    have hly : addrLE last y :=
      (List.pairwise_cons.mp hp).1 y (List.mem_cons_self y ys)
    have hpyys : List.Pairwise addrLE (y :: ys) := (List.pairwise_cons.mp hp).2
    have hplys : List.Pairwise addrLE (last :: ys) := by
      rw [List.pairwise_cons] at hp ⊢
      exact ⟨fun w hw => hp.1 w (List.mem_cons_of_mem y hw),
        (List.pairwise_cons.mp hp.2).2⟩
    unfold dedupConsecAux at hz
    by_cases he : y.address = last.address
    · rw [if_pos he] at hz
      exact addr_lt_of_mem_dedupConsecAux ys last z hplys hz
    · rw [if_neg he] at hz
      have hlty : last.address < y.address :=
        Nat.lt_of_le_of_ne hly (fun h => he h.symm)
      rcases List.mem_cons.mp hz with h' | h'
      · rw [h']; exact hlty
      · exact Nat.lt_trans hlty
          (addr_lt_of_mem_dedupConsecAux ys y z hpyys h')

theorem pairwise_lt_dedupConsecAux :
    ∀ (xs : List SymbolData) (last : SymbolData),
      List.Pairwise addrLE (last :: xs) →
      List.Pairwise (fun a b => a.address < b.address)
        (dedupConsecAux (fun s => s.address) last xs)
  | [], _ => fun _ => List.Pairwise.nil
  | y :: ys, last => by
    intro hp
    have hpyys : List.Pairwise addrLE (y :: ys) := (List.pairwise_cons.mp hp).2
    have hplys : List.Pairwise addrLE (last :: ys) := by
      rw [List.pairwise_cons] at hp ⊢
      exact ⟨fun w hw => hp.1 w (List.mem_cons_of_mem y hw),
        (List.pairwise_cons.mp hp.2).2⟩
    unfold dedupConsecAux
    by_cases he : y.address = last.address
    · rw [if_pos he]
      exact pairwise_lt_dedupConsecAux ys last hplys
    · rw [if_neg he]
      rw [List.pairwise_cons]
      exact ⟨fun z hz => addr_lt_of_mem_dedupConsecAux ys y z hpyys hz,
        pairwise_lt_dedupConsecAux ys y hpyys⟩

theorem pairwise_lt_dedup_sorted (m : List SymbolData)
    (hs : List.Pairwise addrLE m) :
    List.Pairwise (fun a b => a.address < b.address)
      (dedupConsecByKey (fun s => s.address) m) := by
  cases m with
  | nil => exact List.Pairwise.nil
  | cons x xs =>
    unfold dedupConsecByKey
    rw [List.pairwise_cons]
    exact ⟨fun z hz => addr_lt_of_mem_dedupConsecAux xs x z hs hz,
      pairwise_lt_dedupConsecAux xs x hs⟩

theorem mem_addr_dedupConsecAux :
    ∀ (xs : List SymbolData) (last : SymbolData) (a : Nat),
      a ∈ (last :: xs).map (fun s => s.address) →
      a ∈ (last :: dedupConsecAux (fun s => s.address) last xs).map
        (fun s => s.address)
  | [], _, _ => fun ha => ha
  | y :: ys, last, a => by
    intro ha
    unfold dedupConsecAux
    by_cases he : y.address = last.address
    · rw [if_pos he]
      apply mem_addr_dedupConsecAux ys last a
      simp only [List.map_cons, List.mem_cons] at ha ⊢
      rcases ha with h | h | h
      · exact Or.inl h
      · exact Or.inl (by rw [h, he])
      · exact Or.inr h
    · rw [if_neg he]
      simp only [List.map_cons, List.mem_cons] at ha ⊢
      rcases ha with h | h
      · exact Or.inl h
      · have := mem_addr_dedupConsecAux ys y a (by
          simp only [List.map_cons, List.mem_cons]
          exact h)
        simp only [List.map_cons, List.mem_cons] at this
        rcases this with h' | h'
        · exact Or.inr (Or.inl h')
        · exact Or.inr (Or.inr h')

theorem mem_addr_dedup_iff (m : List SymbolData) (a : Nat) :
    a ∈ (dedupConsecByKey (fun s => s.address) m).map (fun s => s.address) ↔
      a ∈ m.map (fun s => s.address) := by
  constructor
  · intro h
    have hsub : List.Sublist (dedupConsecByKey (fun s => s.address) m) m := by
      cases m with
      | nil => exact List.Sublist.refl _
      | cons x xs => exact (dedupConsecAux_sublist _ xs x).cons₂ x
    exact (hsub.map (fun s => s.address)).subset h
  · intro h
    cases m with
    | nil => exact absurd h (by simp)
    | cons x xs => exact mem_addr_dedupConsecAux xs x a h

/-- C3: for any parsed symbol table, the extractor's
sort-by-address-then-dedup-by-address step returns exactly one symbol per
unique address: the result length is the number of distinct addresses, no
two returned symbols share an address, and for each address the record
kept is the first one of that address in the original parsed order (the
sort is stable). -/
theorem collect_self_data_dedups_by_address (symbols : List SymbolData) :
    (collect_self_data_symbols symbols).length =
      (symbols.map (fun s => s.address)).toFinset.card ∧
    (collect_self_data_symbols symbols).Pairwise
      (fun a b => a.address ≠ b.address) ∧
    ∀ a : Nat,
      (collect_self_data_symbols symbols).filter
          (fun s => decide (s.address = a)) =
        (symbols.filter (fun s => decide (s.address = a))).take 1 := by
  have hsorted : List.Pairwise addrLE (List.insertionSort addrLE symbols) :=
    List.sorted_insertionSort addrLE symbols
  refine ⟨?_, ?_, ?_⟩
  · unfold collect_self_data_symbols
    have hplt := pairwise_lt_dedup_sorted _ hsorted
    have hndlt : List.Pairwise (fun x y : Nat => x < y)
        ((dedupConsecByKey (fun s => s.address)
          (List.insertionSort addrLE symbols)).map (fun s => s.address)) :=
      List.Pairwise.map (fun s : SymbolData => s.address)
        (fun (a b : SymbolData) (h : a.address < b.address) => h) hplt
    have hnd : ((dedupConsecByKey (fun s => s.address)
        (List.insertionSort addrLE symbols)).map
        (fun s => s.address)).Nodup :=
      hndlt.imp (fun h => Nat.ne_of_lt h)
    have hfin : ((dedupConsecByKey (fun s => s.address)
          (List.insertionSort addrLE symbols)).map
          (fun s => s.address)).toFinset =
        (symbols.map (fun s => s.address)).toFinset := by
      apply Finset.ext
      intro b
      rw [List.mem_toFinset, List.mem_toFinset]
      rw [mem_addr_dedup_iff]
      exact ((List.perm_insertionSort addrLE symbols).map
        (fun s => s.address)).mem_iff
    calc (dedupConsecByKey (fun s => s.address)
            (List.insertionSort addrLE symbols)).length
        = ((dedupConsecByKey (fun s => s.address)
            (List.insertionSort addrLE symbols)).map
            (fun s => s.address)).length := (List.length_map _ _).symm
      _ = ((dedupConsecByKey (fun s => s.address)
            (List.insertionSort addrLE symbols)).map
            (fun s => s.address)).toFinset.card :=
          (List.toFinset_card_of_nodup hnd).symm
      _ = (symbols.map (fun s => s.address)).toFinset.card := by rw [hfin]
  · exact (pairwise_lt_dedup_sorted _ hsorted).imp (fun h => Nat.ne_of_lt h)
  · intro a
    unfold collect_self_data_symbols
    rw [filter_dedup_sorted_addr a _ hsorted, filter_insertionSort_addr]
